import Mathlib

/-!
# Verification of the gnina_tensorflow autoencoder design

A shallow embedding of the parts of the repository relevant to the
masked loss family (`autoencoder/autoencoder_definitions.py`), the
streaming encode pipeline (`autoencoder/calculate_encodings.py`) and the
batch-processing helper (`utilities/gnina_functions.py`), together with
theorems settling the specification claims about them.

Tensors are embedded as flat lists of rationals; a division whose result
would be non-finite in floating point (NaN/Inf, i.e. a zero divisor) is
embedded as `none`.
-/

set_option maxHeartbeats 1000000

namespace GninaTF

/-! ## Masked loss family (autoencoder/autoencoder_definitions.py) -/

/-- A dense tensor, flattened to its list of entries.  All operations the
loss family performs are elementwise or full reductions, so the shape
beyond the element sequence is irrelevant. -/
abbrev Tensor := List ℚ

/-- Float division; `none` models the non-finite float result (NaN/Inf)
produced when the divisor is zero. -/
def fdiv (x y : ℚ) : Option ℚ := if y = 0 then none else some (x / y)

/-- `tf.reduce_mean` over all elements of a tensor. -/
def reduce_mean (t : Tensor) : Option ℚ := fdiv t.sum (t.length : ℚ)

/-- `tf.reduce_sum` over all elements of a tensor. -/
def reduce_sum (t : Tensor) : ℚ := t.sum

/-- Elementwise subtraction `target - reconstruction`. -/
def sub_t (t r : Tensor) : Tensor := List.zipWith (fun a b => a - b) t r

/-- Elementwise product (used to apply a mask to a difference). -/
def mul_t (t m : Tensor) : Tensor := List.zipWith (fun a b => a * b) t m

/-- `tf.square`, elementwise. -/
def square_t (t : Tensor) : Tensor := t.map (fun x => x * x)

/-- `tf.abs`, elementwise. -/
def abs_t (t : Tensor) : Tensor := t.map (fun x => |x|)

/-- `tf.cast(tf.not_equal(target, 0), tf.float32)`. -/
def not_equal_zero_mask (t : Tensor) : Tensor :=
  t.map (fun a => if a ≠ 0 then 1 else 0)

/-- `tf.cast(tf.equal(target, 0), tf.float32)`. -/
def equal_zero_mask (t : Tensor) : Tensor :=
  t.map (fun a => if a = 0 then 1 else 0)

/-- Elementwise `1 - x` (the mask of `nonzero_mae`, source line 307). -/
def one_minus_t (t : Tensor) : Tensor := t.map (fun x => 1 - x)

/-- `nonzero_mse` (source lines 197-212): the mask of entries where the
target is nonzero is multiplied into the difference, which is then
squared and averaged over all elements. -/
def nonzero_mse (target reconstruction : Tensor) : Option ℚ :=
  reduce_mean (square_t (mul_t (sub_t target reconstruction)
    (not_equal_zero_mask target)))

/-- `zero_mse` (source lines 215-230). -/
def zero_mse (target reconstruction : Tensor) : Option ℚ :=
  reduce_mean (square_t (mul_t (sub_t target reconstruction)
    (equal_zero_mask target)))

/-- `composite_mse` (source lines 233-258):
`frac = ratio / (1 + ratio)`, result `frac * nonzero_mse + (1 - frac) * zero_mse`.
A non-finite intermediate propagates as `none`. -/
def composite_mse (target reconstruction : Tensor) (ratio : ℚ) : Option ℚ :=
  match fdiv ratio (1 + ratio) with
  | none => none
  | some frac =>
    match nonzero_mse target reconstruction, zero_mse target reconstruction with
    | some nz, some z => some (frac * nz + (1 - frac) * z)
    | _, _ => none

/-- `mae` (source lines 261-272): plain mean absolute error. -/
def mae (target reconstruction : Tensor) : Option ℚ :=
  reduce_mean (abs_t (sub_t target reconstruction))

/-- `zero_mae` (source lines 275-291): sum of masked absolute differences
divided by the sum of the mask (the count of zero entries of the target). -/
def zero_mae (target reconstruction : Tensor) : Option ℚ :=
  fdiv (reduce_sum (abs_t (mul_t (sub_t target reconstruction)
                                 (equal_zero_mask target))))
       (reduce_sum (equal_zero_mask target))

/-- `nonzero_mae` (source lines 294-311): mask is `1 - cast(equal(target, 0))`,
result is the sum of masked absolute differences divided by the mask sum. -/
def nonzero_mae (target reconstruction : Tensor) : Option ℚ :=
  fdiv (reduce_sum (abs_t (mul_t (sub_t target reconstruction)
                                 (one_minus_t (equal_zero_mask target)))))
       (reduce_sum (one_minus_t (equal_zero_mask target)))

/-- Modelled from the spec: the plain mean squared error over all elements,
`mean((target - reconstruction)^2)`.  The source defines no such function;
this is the comparator named by the claim about `nonzero_mse + zero_mse`. -/
def plain_mse (target reconstruction : Tensor) : Option ℚ :=
  reduce_mean (square_t (sub_t target reconstruction))

/-! ## Model compilation (AutoEncoderBase.__init__, source lines 26-93) -/

/-- The loss/metric functions of the module, as symbols. -/
inductive MetricFn
  | mae
  | nonzero_mae
  | zero_mae
  | zero_mse
  | nonzero_mse
  | composite_mse
deriving DecidableEq, Repr

/-- The observable configuration produced by `AutoEncoderBase.__init__`:
which inputs the model has, how the loss is attached, and which metric
functions are tracked on the reconstruction output. -/
structure CompiledModel where
  /-- whether the auxiliary `frac` input was added -/
  has_frac_input : Bool
  /-- whether the loss was attached via `add_loss` (composite branch) -/
  uses_add_loss : Bool
  /-- the per-output loss on the reconstruction output, if any -/
  reconstruction_loss : Option String
  /-- the per-output loss on the encoding output (always absent) -/
  encoding_loss : Option String
  /-- metric functions tracked on the reconstruction output -/
  reconstruction_metrics : List MetricFn
deriving DecidableEq, Repr

/-- `AutoEncoderBase.__init__` (source lines 56-87): the metrics dict is
built once (line 71: `[mae, nonzero_mae, zero_mae, zero_mse, nonzero_mse]`)
and passed to `compile` in both the composite and the standard branch. -/
def autoencoder_compile (loss : String) : CompiledModel :=
  let metrics : List MetricFn :=
    [MetricFn.mae, MetricFn.nonzero_mae, MetricFn.zero_mae,
     MetricFn.zero_mse, MetricFn.nonzero_mse]
  if loss = "composite_mse" then
    { has_frac_input := true
      uses_add_loss := true
      reconstruction_loss := none
      encoding_loss := none
      reconstruction_metrics := metrics }
  else
    { has_frac_input := false
      uses_add_loss := false
      reconstruction_loss := some loss
      encoding_loss := none
      reconstruction_metrics := metrics }

/-! ## Index-file parsing (`get_paths`, calculate_encodings.py lines 42-67) -/

/-- One parsed line of a types/index file: `<label> <receptor> <ligand>`. -/
structure Record where
  label : Int
  receptor : String
  lig : String
deriving DecidableEq, Repr

/-- Loop body of `get_paths`.  Note, mirroring the source faithfully:
the set `recs` is initialised empty and no element is ever added to it,
and `current_rec` is assigned only on the line with index 0. -/
def get_paths_go (recs : List String) :
    Nat → Option String → List (Nat × Record) → List Record →
    Except String (List (Nat × Record))
  | _, _, paths, [] => Except.ok paths
  | idx, current_rec, paths, line :: rest =>
    if idx = 0 then
      get_paths_go recs (idx + 1) (some line.receptor)
        (paths ++ [(idx, line)]) rest
    else if some line.receptor ≠ current_rec ∧ line.receptor ∈ recs then
      Except.error "Types file must be grouped by receptor"
    else
      get_paths_go recs (idx + 1) current_rec (paths ++ [(idx, line)]) rest

/-- `get_paths` (source lines 42-67), mapping each line index to its
parsed record, with the (dead) grouping check of lines 61-65. -/
def get_paths (lines : List Record) : Except String (List (Nat × Record)) :=
  get_paths_go [] 0 none [] lines

/-! ## Streaming encode pipeline (`calculate_encodings`, lines 83-129) -/

/-- A group entry `(label, ligand_path, encoding)` as appended on source
lines 112 and 126.  `α` is the type of one encoding vector. -/
abbrev Entry (α : Type) := Int × String × α

/-- A flushed group: the receptor path and its ordered entries. -/
abbrev Group (α : Type) := String × List (Entry α)

/-- The mutable state of the grouping loop: the receptor of the currently
open group, its accumulated entries, and the groups flushed so far (the
source writes each flushed group to disk; the flush order is recorded
here and the disk write is modelled separately). -/
structure GState (α : Type) where
  current_rec : String
  encodings : List (Entry α)
  flushed : List (Group α)
deriving DecidableEq, Repr

/-- The entry built for the record at a global index, where `enc i` is
`encodings_numpy[batch_idx]` for the inference result of that index. -/
def entryOf (enc : Nat → α) (r : Record) (i : Nat) : Entry α :=
  (r.label, r.lig, enc i)

/-- Loop body shared by source lines 105-112 and 119-126: on a receptor
change flush the open group and start a new one, then append the entry. -/
def stepRecord (enc : Nat → α) (global_idx : Nat) (r : Record)
    (st : GState α) : GState α :=
  if r.receptor ≠ st.current_rec then
    { current_rec := r.receptor
      encodings := [entryOf enc r global_idx]
      flushed := st.flushed ++ [(st.current_rec, st.encodings)] }
  else
    { st with encodings := st.encodings ++ [entryOf enc r global_idx] }

/-- `stepRecord` driven by a lookup of `paths[global_idx]` (the source
indexes the eagerly built dictionary; all indices used are in range). -/
def appendEntry (paths : List Record) (enc : Nat → α) (st : GState α)
    (global_idx : Nat) : GState α :=
  match paths[global_idx]? with
  | some r => stepRecord enc global_idx r st
  | none => st

/-- Observable outcome of `calculate_encodings`: the flushed groups in
flush order, and one entry per `e.next_batch` call recording how many
results of that batch were consumed. -/
structure EncodeTrace (α : Type) where
  groups : List (Group α)
  batch_consumed : List Nat
deriving DecidableEq, Repr

/-- The final flush of source lines 128-129: if the open group is
non-empty it is flushed after the last one triggered by a receptor
change. -/
def finalGroups (st : GState α) : List (Group α) :=
  if st.encodings.length ≠ 0 then
    st.flushed ++ [(st.current_rec, st.encodings)]
  else st.flushed

/-- `calculate_encodings` (source lines 83-129).  `none` models the
`KeyError` of `paths[0]` on an empty index file.  The main loop runs
`total_size // batch_size` times consuming a full batch each time; one
more batch is always fetched and its first `total_size % batch_size`
results are consumed; a final non-empty open group is flushed. -/
def calculate_encodings (paths : List Record) (batch_size : Nat)
    (enc : Nat → α) : Option (EncodeTrace α) :=
  match paths[0]? with
  | none => none
  | some r0 =>
    let total_size := paths.length
    let iterations := total_size / batch_size
    let init : GState α := ⟨r0.receptor, [], []⟩
    let main := (List.range iterations).foldl
      (fun (p : GState α × List Nat) iteration =>
        let idxs := (List.range batch_size).map
          (fun batch_idx => iteration * batch_size + batch_idx)
        (idxs.foldl (appendEntry paths enc) p.1, p.2 ++ [idxs.length]))
      (init, [])
    let remainder := total_size % batch_size
    let extra_idxs := (List.range remainder).map
      (fun batch_idx => iterations * batch_size + batch_idx)
    let final := extra_idxs.foldl (appendEntry paths enc) main.1
    let consumed := main.2 ++ [extra_idxs.length]
    some ⟨finalGroups final, consumed⟩

/-! ## Specification-side grouping definitions -/

/-- The records of the loop body, recursed directly on the record list
(used to restate the index-driven fold; proven equal to it). -/
def runRecords (enc : Nat → α) : Nat → GState α → List Record → GState α
  | _, st, [] => st
  | i, st, r :: rs => runRecords enc (i + 1) (stepRecord enc i r st) rs

/-- The groups still to be produced from an open group `(cur, acc)` and
the remaining records. -/
def runFrom (enc : Nat → α) : Nat → String → List (Entry α) →
    List Record → List (Group α)
  | _, cur, acc, [] => if acc.length ≠ 0 then [(cur, acc)] else []
  | i, cur, acc, r :: rs =>
    if r.receptor ≠ cur then
      (cur, acc) :: runFrom enc (i + 1) r.receptor [entryOf enc r i] rs
    else
      runFrom enc (i + 1) cur (acc ++ [entryOf enc r i]) rs

/-- Modelled from the spec: the canonical grouping of the index file —
one group per maximal run of equal consecutive receptors, entries in file
order, groups in file order.  For a receptor-contiguous file this is
exactly "every record in one group, in order, groups in order of first
appearance of their receptor". -/
def specGroups (enc : Nat → α) : Nat → List Record → List (Group α)
  | _, [] => []
  | i, r :: rs =>
    match specGroups enc (i + 1) rs with
    | [] => [(r.receptor, [entryOf enc r i])]
    | (g, es) :: rest =>
      if g = r.receptor then (g, entryOf enc r i :: es) :: rest
      else (r.receptor, [entryOf enc r i]) :: (g, es) :: rest

/-- Prepend an open group to a group list, merging it with the first
group when the receptors agree. -/
def mergeAcc (cur : String) (acc : List (Entry α)) :
    List (Group α) → List (Group α)
  | [] => [(cur, acc)]
  | (g, es) :: rest =>
    if g = cur then (g, acc ++ es) :: rest
    else (cur, acc) :: (g, es) :: rest

/-- Collapse maximal runs of equal consecutive elements to one element. -/
def dedupConsec : List String → List String
  | [] => []
  | [a] => [a]
  | a :: b :: l =>
    if a = b then dedupConsec (b :: l) else a :: dedupConsec (b :: l)

/-- The index file is grouped by receptor: collapsing consecutive runs of
the receptor column leaves no duplicate, i.e. no receptor reappears after
a different receptor intervened. -/
def groupedByRec (paths : List Record) : Prop :=
  (dedupConsec (paths.map Record.receptor)).Nodup

instance (paths : List Record) : Decidable (groupedByRec paths) := by
  unfold groupedByRec; infer_instance

/-- All entries of the index file, in file order, numbered from `i`. -/
def enumEntries (enc : Nat → α) : Nat → List Record → List (Entry α)
  | _, [] => []
  | i, r :: rs => entryOf enc r i :: enumEntries enc (i + 1) rs

/-! ## Binary serialisation (`write_encodings_to_disk`, lines 69-80) -/

/-- One `ligand` submessage of `gnina_embeddings_pb2.protein`. -/
structure LigandMsg (α : Type) where
  path : String
  embedding : α
  label : Int
deriving DecidableEq, Repr

/-- The `protein` protobuf message: receptor path plus ligand entries. -/
structure ProteinMsg (α : Type) where
  path : String
  ligand : List (LigandMsg α)
deriving DecidableEq, Repr

/-- Source lines 70-76: build the protein message from a flushed group. -/
def buildProteinMsg (rec_path : String) (encodings : List (Entry α)) :
    ProteinMsg α :=
  { path := rec_path
    ligand := encodings.map (fun e =>
      { path := e.2.1, embedding := e.2.2, label := e.1 }) }

/-- Split a character list on `/`, keeping only non-empty components. -/
def pathComponents : List Char → List Char → List (List Char)
  | acc, [] => if acc.length ≠ 0 then [acc.reverse] else []
  | acc, c :: cs =>
    if c = '/' then
      (if acc.length ≠ 0 then [acc.reverse] else []) ++ pathComponents [] cs
    else pathComponents (c :: acc) cs

/-- `pathlib.PurePath.name`: the final path component. -/
def pyName (p : String) : String :=
  match (pathComponents [] p.toList).getLast? with
  | some n => String.mk n
  | none => ""

/-- The index of the last `.` in a character list, if any. -/
def lastDotIndex (cs : List Char) : Option Nat :=
  ((cs.enum.filter (fun e => e.2 = '.')).map (fun e => e.1)).getLast?

/-- `pathlib.PurePath.stem`: the name without its suffix, where a suffix
starts at the last `.` provided that dot is neither the first nor the
last character of the name. -/
def pyStem (p : String) : String :=
  let name := pyName p
  let cs := name.toList
  match lastDotIndex cs with
  | some i => if 0 < i ∧ i < cs.length - 1 then String.mk (cs.take i) else name
  | none => name

/-- Source line 78: `fname = Path(rec).stem + '.bin'`. -/
def binFileName (rec_path : String) : String := pyStem rec_path ++ ".bin"

/-- Source line 97: `encodings_dir = Path(save_path) / 'encodings'`. -/
def encodingsDir (save_path : String) : String := save_path ++ "/encodings"

/-- A flat file store mapping paths to written contents. -/
def fsWrite : List (String × β) → String → β → List (String × β)
  | [], path, c => [(path, c)]
  | kv :: rest, path, c =>
    if kv.1 = path then (path, c) :: rest else kv :: fsWrite rest path c

/-- Look a path up in the file store. -/
def fsLookup : List (String × β) → String → Option β
  | [], _ => none
  | kv :: rest, q => if kv.1 = q then some kv.2 else fsLookup rest q

/-- `write_encodings_to_disk` (source lines 69-80): serialise the group
and write (creating or truncating, as `open(..., 'wb')` does) the single
file `<encodings_dir>/<stem>.bin`. -/
def write_encodings_to_disk (rec_path : String) (encodings : List (Entry α))
    (encodings_dir : String) (files : List (String × ProteinMsg α)) :
    List (String × ProteinMsg α) :=
  fsWrite files (encodings_dir ++ "/" ++ binFileName rec_path)
    (buildProteinMsg rec_path encodings)

/-- The chain of directories `mkdir(parents=True)` creates: every
ancestor of the path, shortest first, in normalised form. -/
def ancestorDirs (d : String) : List String :=
  let comps := (pathComponents [] d.toList).map String.mk
  (List.range comps.length).map
    (fun k => String.intercalate "/" (comps.take (k + 1)))

/-- Source line 98: `encodings_dir.mkdir(exist_ok=True, parents=True)` —
insert every ancestor directory that is not already present. -/
def mkdir_parents_exist_ok (dirs : List String) (d : String) : List String :=
  (ancestorDirs d).foldl
    (fun ds p => if p ∈ ds then ds else ds ++ [p]) dirs

/-! ## Batch processing (`process_batch`, gnina_functions.py lines 120-175) -/

/-- The externally observable actions `process_batch` can perform, in
program order. -/
inductive BatchAction
  | next_batch
  | grid_forward
  | autoencoder_predict
  | model_predict
  | extract_label
  | train_on_batch
deriving DecidableEq, Repr

/-- The error kinds `process_batch` can raise. -/
inductive PBError
  | missingLabels
deriving DecidableEq, Repr

/-- `process_batch` (source lines 120-175) reduced to its action trace:
the guard of lines 146-148 raises before any batch is fetched; otherwise
a batch is fetched and gridded, optionally passed through the
autoencoder, and then predicted on or trained on according to
`labels_tensor`/`train`.  (Whether a `frac` constant is appended to the
autoencoder inputs does not change the action sequence and is omitted.) -/
def process_batch (train has_labels has_autoencoder : Bool) :
    List BatchAction × Option PBError :=
  if train ∧ ¬has_labels then ([], some PBError.missingLabels)
  else
    let acts := [BatchAction.next_batch, BatchAction.grid_forward]
    let acts := if has_autoencoder then
        acts ++ [BatchAction.autoencoder_predict]
      else acts
    if ¬has_labels then (acts ++ [BatchAction.model_predict], none)
    else
      let acts := acts ++ [BatchAction.extract_label]
      if train then (acts ++ [BatchAction.train_on_batch], none)
      else (acts ++ [BatchAction.model_predict], none)

/-! ## Lemmas about the masked loss family -/

theorem fdiv_none_iff (x y : ℚ) : fdiv x y = none ↔ y = 0 := by
  by_cases h : y = 0 <;> simp [fdiv, h]

theorem fdiv_of_ne (x y : ℚ) (h : y ≠ 0) : fdiv x y = some (x / y) := by
  simp [fdiv, h]

theorem len_sq_mask_ne (t r : Tensor) (h : t.length = r.length) :
    (square_t (mul_t (sub_t t r) (not_equal_zero_mask t))).length = t.length := by
  simp [square_t, mul_t, sub_t, not_equal_zero_mask, List.length_zipWith, h]

theorem len_sq_mask_eq (t r : Tensor) (h : t.length = r.length) :
    (square_t (mul_t (sub_t t r) (equal_zero_mask t))).length = t.length := by
  simp [square_t, mul_t, sub_t, equal_zero_mask, List.length_zipWith, h]

theorem len_sq_plain (t r : Tensor) (h : t.length = r.length) :
    (square_t (sub_t t r)).length = t.length := by
  simp [square_t, sub_t, List.length_zipWith, h]

theorem sum_sq_mask_ne : ∀ (t r : Tensor), t.length = r.length →
    (square_t (mul_t (sub_t t r) (not_equal_zero_mask t))).sum
      = (((t.zip r).filter (fun q => q.1 ≠ 0)).map (fun q => (q.1 - q.2) ^ 2)).sum := by
  intro t
  induction t with
  | nil => intro r _; simp [square_t, mul_t, sub_t, not_equal_zero_mask]
  | cons a t ih =>
    intro r h
    cases r with
    | nil => simp at h
    | cons b r =>
      have h' : t.length = r.length := by simpa using h
      have IH := ih r h'
      by_cases ha : a = 0 <;>
        simp [square_t, mul_t, sub_t, not_equal_zero_mask, List.zip_cons_cons,
          List.filter_cons, ha, pow_two] at IH ⊢ <;>
        linarith [IH]

theorem sum_sq_mask_eq : ∀ (t r : Tensor), t.length = r.length →
    (square_t (mul_t (sub_t t r) (equal_zero_mask t))).sum
      = (((t.zip r).filter (fun q => q.1 = 0)).map (fun q => (q.1 - q.2) ^ 2)).sum := by
  intro t
  induction t with
  | nil => intro r _; simp [square_t, mul_t, sub_t, equal_zero_mask]
  | cons a t ih =>
    intro r h
    cases r with
    | nil => simp at h
    | cons b r =>
      have h' : t.length = r.length := by simpa using h
      have IH := ih r h'
      by_cases ha : a = 0 <;>
        simp [square_t, mul_t, sub_t, equal_zero_mask, List.zip_cons_cons,
          List.filter_cons, ha, pow_two] at IH ⊢ <;>
        linarith [IH]

theorem sum_abs_mask_eq : ∀ (t r : Tensor), t.length = r.length →
    (abs_t (mul_t (sub_t t r) (equal_zero_mask t))).sum
      = (((t.zip r).filter (fun q => q.1 = 0)).map (fun q => |q.1 - q.2|)).sum := by
  intro t
  induction t with
  | nil => intro r _; simp [abs_t, mul_t, sub_t, equal_zero_mask]
  | cons a t ih =>
    intro r h
    cases r with
    | nil => simp at h
    | cons b r =>
      have h' : t.length = r.length := by simpa using h
      have IH := ih r h'
      by_cases ha : a = 0 <;>
        simp [abs_t, mul_t, sub_t, equal_zero_mask, List.zip_cons_cons,
          List.filter_cons, ha, pow_two] at IH ⊢ <;>
        linarith [IH]

theorem sum_abs_mask_ne : ∀ (t r : Tensor), t.length = r.length →
    (abs_t (mul_t (sub_t t r) (not_equal_zero_mask t))).sum
      = (((t.zip r).filter (fun q => q.1 ≠ 0)).map (fun q => |q.1 - q.2|)).sum := by
  intro t
  induction t with
  | nil => intro r _; simp [abs_t, mul_t, sub_t, not_equal_zero_mask]
  | cons a t ih =>
    intro r h
    cases r with
    | nil => simp at h
    | cons b r =>
      have h' : t.length = r.length := by simpa using h
      have IH := ih r h'
      by_cases ha : a = 0 <;>
        simp [abs_t, mul_t, sub_t, not_equal_zero_mask, List.zip_cons_cons,
          List.filter_cons, ha, pow_two] at IH ⊢ <;>
        linarith [IH]

theorem one_minus_eq_mask (t : Tensor) :
    one_minus_t (equal_zero_mask t) = not_equal_zero_mask t := by
  induction t with
  | nil => rfl
  | cons a t ih =>
    by_cases ha : a = 0 <;>
      simp [one_minus_t, equal_zero_mask, not_equal_zero_mask, ha] <;>
      simpa [one_minus_t, equal_zero_mask, not_equal_zero_mask] using ih

theorem eq_mask_sum (t : Tensor) :
    (equal_zero_mask t).sum = ((t.filter (fun a => a = 0)).length : ℚ) := by
  induction t with
  | nil => simp [equal_zero_mask]
  | cons a t ih =>
    by_cases ha : a = 0 <;>
      simp [equal_zero_mask, List.filter_cons, ha] at ih ⊢ <;> linarith [ih]

theorem ne_mask_sum (t : Tensor) :
    (not_equal_zero_mask t).sum = ((t.filter (fun a => a ≠ 0)).length : ℚ) := by
  induction t with
  | nil => simp [not_equal_zero_mask]
  | cons a t ih =>
    by_cases ha : a = 0 <;>
      simp [not_equal_zero_mask, List.filter_cons, ha] at ih ⊢ <;> linarith [ih]

theorem tensor_length_cast_ne_zero (t : Tensor) (hne : t ≠ []) :
    (t.length : ℚ) ≠ 0 :=
  Nat.cast_ne_zero.mpr (fun h => hne (List.length_eq_zero.mp h))

theorem nonzero_mse_eq (t r : Tensor) (hlen : t.length = r.length) (hne : t ≠ []) :
    nonzero_mse t r
      = some ((((t.zip r).filter (fun q => q.1 ≠ 0)).map
          (fun q => (q.1 - q.2) ^ 2)).sum / (t.length : ℚ)) := by
  unfold nonzero_mse reduce_mean
  rw [len_sq_mask_ne t r hlen, sum_sq_mask_ne t r hlen,
    fdiv_of_ne _ _ (tensor_length_cast_ne_zero t hne)]

theorem zero_mse_eq (t r : Tensor) (hlen : t.length = r.length) (hne : t ≠ []) :
    zero_mse t r
      = some ((((t.zip r).filter (fun q => q.1 = 0)).map
          (fun q => (q.1 - q.2) ^ 2)).sum / (t.length : ℚ)) := by
  unfold zero_mse reduce_mean
  rw [len_sq_mask_eq t r hlen, sum_sq_mask_eq t r hlen,
    fdiv_of_ne _ _ (tensor_length_cast_ne_zero t hne)]

theorem nonzero_mae_eq_fdiv (t r : Tensor) (hlen : t.length = r.length) :
    nonzero_mae t r
      = fdiv (((t.zip r).filter (fun q => q.1 ≠ 0)).map (fun q => |q.1 - q.2|)).sum
          ((t.filter (fun a => a ≠ 0)).length : ℚ) := by
  unfold nonzero_mae reduce_sum
  rw [one_minus_eq_mask, sum_abs_mask_ne t r hlen, ne_mask_sum]

theorem zero_mae_eq_fdiv (t r : Tensor) (hlen : t.length = r.length) :
    zero_mae t r
      = fdiv (((t.zip r).filter (fun q => q.1 = 0)).map (fun q => |q.1 - q.2|)).sum
          ((t.filter (fun a => a = 0)).length : ℚ) := by
  unfold zero_mae reduce_sum
  rw [sum_abs_mask_eq t r hlen, eq_mask_sum]

theorem sum_sq_zip : ∀ (t r : Tensor),
    (square_t (sub_t t r)).sum = ((t.zip r).map (fun q => (q.1 - q.2) ^ 2)).sum := by
  intro t
  induction t with
  | nil => intro r; simp [square_t, sub_t]
  | cons a t ih =>
    intro r
    cases r with
    | nil => simp [square_t, sub_t]
    | cons b r =>
      have IH := ih r
      simp [square_t, sub_t, List.zip_cons_cons, pow_two] at IH ⊢
      linarith [IH]

theorem zip_sq_split (l : List (ℚ × ℚ)) :
    ((l.filter (fun q => q.1 ≠ 0)).map (fun q => (q.1 - q.2) ^ 2)).sum
      + ((l.filter (fun q => q.1 = 0)).map (fun q => (q.1 - q.2) ^ 2)).sum
      = (l.map (fun q => (q.1 - q.2) ^ 2)).sum := by
  induction l with
  | nil => simp
  | cons q l ih =>
    by_cases hq : q.1 = 0 <;> simp [List.filter_cons, hq] at ih ⊢ <;> linarith [ih]

/-! ## Claim theorems about the masked loss family -/

/-- Claim C6: `nonzero_mse` and `zero_mse` multiply the boolean mask
(target nonzero, resp. target zero) elementwise into the difference
before squaring, and average over all elements: the result is the sum of
squared differences restricted to the masked entries divided by the full
element count. -/
theorem mse_full_denominator (t r : Tensor) (hlen : t.length = r.length)
    (hne : t ≠ []) :
    nonzero_mse t r
      = some ((((t.zip r).filter (fun q => q.1 ≠ 0)).map
          (fun q => (q.1 - q.2) ^ 2)).sum / (t.length : ℚ))
  ∧ zero_mse t r
      = some ((((t.zip r).filter (fun q => q.1 = 0)).map
          (fun q => (q.1 - q.2) ^ 2)).sum / (t.length : ℚ)) :=
  ⟨nonzero_mse_eq t r hlen hne, zero_mse_eq t r hlen hne⟩

/-- Witness for C6 at `t = [1, 0, 2]`, `r = [0, 1, 1]`. -/
theorem mse_full_denominator_witness :
    ([(1 : ℚ), 0, 2] : Tensor).length = ([(0 : ℚ), 1, 1] : Tensor).length
  ∧ ([(1 : ℚ), 0, 2] : Tensor) ≠ []
  ∧ (nonzero_mse [(1 : ℚ), 0, 2] [(0 : ℚ), 1, 1]
      = some (((([(1 : ℚ), 0, 2].zip [(0 : ℚ), 1, 1]).filter (fun q => q.1 ≠ 0)).map
          (fun q => (q.1 - q.2) ^ 2)).sum / (([(1 : ℚ), 0, 2] : Tensor).length : ℚ))
    ∧ zero_mse [(1 : ℚ), 0, 2] [(0 : ℚ), 1, 1]
      = some (((([(1 : ℚ), 0, 2].zip [(0 : ℚ), 1, 1]).filter (fun q => q.1 = 0)).map
          (fun q => (q.1 - q.2) ^ 2)).sum / (([(1 : ℚ), 0, 2] : Tensor).length : ℚ))) :=
  ⟨rfl, by simp,
    mse_full_denominator [(1 : ℚ), 0, 2] [(0 : ℚ), 1, 1] rfl (by simp)⟩

/-- Claim C7: `nonzero_mae` / `zero_mae` divide the sum of masked
absolute differences by the count of masked elements, and return `none`
(the embedding of not-a-number) exactly when the respective mask selects
zero elements. -/
theorem mae_nan_on_empty_mask (t r : Tensor) (hlen : t.length = r.length) :
    (nonzero_mae t r = none ↔ (t.filter (fun a => a ≠ 0)).length = 0)
  ∧ (zero_mae t r = none ↔ (t.filter (fun a => a = 0)).length = 0)
  ∧ ((t.filter (fun a => a ≠ 0)).length ≠ 0 →
      nonzero_mae t r
        = some ((((t.zip r).filter (fun q => q.1 ≠ 0)).map
            (fun q => |q.1 - q.2|)).sum / ((t.filter (fun a => a ≠ 0)).length : ℚ)))
  ∧ ((t.filter (fun a => a = 0)).length ≠ 0 →
      zero_mae t r
        = some ((((t.zip r).filter (fun q => q.1 = 0)).map
            (fun q => |q.1 - q.2|)).sum / ((t.filter (fun a => a = 0)).length : ℚ))) := by
  refine ⟨?_, ?_, ?_, ?_⟩
  · rw [nonzero_mae_eq_fdiv t r hlen, fdiv_none_iff, Nat.cast_eq_zero]
  · rw [zero_mae_eq_fdiv t r hlen, fdiv_none_iff, Nat.cast_eq_zero]
  · intro hc
    rw [nonzero_mae_eq_fdiv t r hlen,
      fdiv_of_ne _ _ (Nat.cast_ne_zero.mpr hc)]
  · intro hc
    rw [zero_mae_eq_fdiv t r hlen,
      fdiv_of_ne _ _ (Nat.cast_ne_zero.mpr hc)]

/-- Witness for C7 at `t = [1, 0, 2]`, `r = [0, 1, 1]`. -/
theorem mae_nan_on_empty_mask_witness :
    ([(1 : ℚ), 0, 2] : Tensor).length = ([(0 : ℚ), 1, 1] : Tensor).length
  ∧ ((nonzero_mae [(1 : ℚ), 0, 2] [(0 : ℚ), 1, 1] = none
        ↔ ([(1 : ℚ), 0, 2].filter (fun a => a ≠ 0)).length = 0)
    ∧ (zero_mae [(1 : ℚ), 0, 2] [(0 : ℚ), 1, 1] = none
        ↔ ([(1 : ℚ), 0, 2].filter (fun a => a = 0)).length = 0)
    ∧ (([(1 : ℚ), 0, 2].filter (fun a => a ≠ 0)).length ≠ 0 →
        nonzero_mae [(1 : ℚ), 0, 2] [(0 : ℚ), 1, 1]
          = some (((([(1 : ℚ), 0, 2].zip [(0 : ℚ), 1, 1]).filter (fun q => q.1 ≠ 0)).map
              (fun q => |q.1 - q.2|)).sum
            / (([(1 : ℚ), 0, 2].filter (fun a => a ≠ 0)).length : ℚ)))
    ∧ (([(1 : ℚ), 0, 2].filter (fun a => a = 0)).length ≠ 0 →
        zero_mae [(1 : ℚ), 0, 2] [(0 : ℚ), 1, 1]
          = some (((([(1 : ℚ), 0, 2].zip [(0 : ℚ), 1, 1]).filter (fun q => q.1 = 0)).map
              (fun q => |q.1 - q.2|)).sum
            / (([(1 : ℚ), 0, 2].filter (fun a => a = 0)).length : ℚ)))) :=
  ⟨rfl, mae_nan_on_empty_mask [(1 : ℚ), 0, 2] [(0 : ℚ), 1, 1] rfl⟩

/-- Claim C3: `composite_mse(t, r, ratio)` equals
`w * nonzero_mse + (1 - w) * zero_mse` with `w = ratio / (1 + ratio)`,
exactly. -/
theorem composite_mse_weighted (t r : Tensor) (ratio : ℚ)
    (hlen : t.length = r.length) (hne : t ≠ []) (hr : 1 + ratio ≠ 0) :
    ∃ nz z : ℚ, nonzero_mse t r = some nz ∧ zero_mse t r = some z ∧
      composite_mse t r ratio
        = some (ratio / (1 + ratio) * nz + (1 - ratio / (1 + ratio)) * z) := by
  refine ⟨_, _, nonzero_mse_eq t r hlen hne, zero_mse_eq t r hlen hne, ?_⟩
  unfold composite_mse
  rw [fdiv_of_ne _ _ hr, nonzero_mse_eq t r hlen hne, zero_mse_eq t r hlen hne]

/-- Witness for C3 at `t = [1, 0]`, `r = [0, 1]`, covering the ratios
0, 1, 3 and 100 named by the specification. -/
theorem composite_mse_weighted_witness :
    ([(1 : ℚ), 0] : Tensor).length = ([(0 : ℚ), 1] : Tensor).length
  ∧ ([(1 : ℚ), 0] : Tensor) ≠ []
  ∧ (1 + (0 : ℚ) ≠ 0) ∧ (1 + (1 : ℚ) ≠ 0) ∧ (1 + (3 : ℚ) ≠ 0) ∧ (1 + (100 : ℚ) ≠ 0)
  ∧ (∃ nz z : ℚ, nonzero_mse [(1 : ℚ), 0] [(0 : ℚ), 1] = some nz
      ∧ zero_mse [(1 : ℚ), 0] [(0 : ℚ), 1] = some z
      ∧ composite_mse [(1 : ℚ), 0] [(0 : ℚ), 1] 0
        = some ((0 : ℚ) / (1 + 0) * nz + (1 - (0 : ℚ) / (1 + 0)) * z))
  ∧ (∃ nz z : ℚ, nonzero_mse [(1 : ℚ), 0] [(0 : ℚ), 1] = some nz
      ∧ zero_mse [(1 : ℚ), 0] [(0 : ℚ), 1] = some z
      ∧ composite_mse [(1 : ℚ), 0] [(0 : ℚ), 1] 1
        = some ((1 : ℚ) / (1 + 1) * nz + (1 - (1 : ℚ) / (1 + 1)) * z))
  ∧ (∃ nz z : ℚ, nonzero_mse [(1 : ℚ), 0] [(0 : ℚ), 1] = some nz
      ∧ zero_mse [(1 : ℚ), 0] [(0 : ℚ), 1] = some z
      ∧ composite_mse [(1 : ℚ), 0] [(0 : ℚ), 1] 3
        = some ((3 : ℚ) / (1 + 3) * nz + (1 - (3 : ℚ) / (1 + 3)) * z))
  ∧ (∃ nz z : ℚ, nonzero_mse [(1 : ℚ), 0] [(0 : ℚ), 1] = some nz
      ∧ zero_mse [(1 : ℚ), 0] [(0 : ℚ), 1] = some z
      ∧ composite_mse [(1 : ℚ), 0] [(0 : ℚ), 1] 100
        = some ((100 : ℚ) / (1 + 100) * nz + (1 - (100 : ℚ) / (1 + 100)) * z)) :=
  ⟨rfl, by simp, by norm_num, by norm_num, by norm_num, by norm_num,
    composite_mse_weighted [(1 : ℚ), 0] [(0 : ℚ), 1] 0 rfl (by simp) (by norm_num),
    composite_mse_weighted [(1 : ℚ), 0] [(0 : ℚ), 1] 1 rfl (by simp) (by norm_num),
    composite_mse_weighted [(1 : ℚ), 0] [(0 : ℚ), 1] 3 rfl (by simp) (by norm_num),
    composite_mse_weighted [(1 : ℚ), 0] [(0 : ℚ), 1] 100 rfl (by simp) (by norm_num)⟩

/-- Claim C10: `nonzero_mse + zero_mse` equals the plain mean squared
error over all elements, because the two masks partition the entries and
both use the full element count as denominator. -/
theorem mse_masks_partition (t r : Tensor) (hlen : t.length = r.length)
    (hne : t ≠ []) :
    ∃ a b m : ℚ, nonzero_mse t r = some a ∧ zero_mse t r = some b ∧
      plain_mse t r = some m ∧ a + b = m := by
  refine ⟨_, _, ((t.zip r).map (fun q => (q.1 - q.2) ^ 2)).sum / (t.length : ℚ),
    nonzero_mse_eq t r hlen hne, zero_mse_eq t r hlen hne, ?_, ?_⟩
  · unfold plain_mse reduce_mean
    rw [len_sq_plain t r hlen, sum_sq_zip,
      fdiv_of_ne _ _ (tensor_length_cast_ne_zero t hne)]
  · rw [div_add_div_same, zip_sq_split]

/-- Witness for C10 at `t = [1, 0, 2]`, `r = [0, 1, 1]`. -/
theorem mse_masks_partition_witness :
    ([(1 : ℚ), 0, 2] : Tensor).length = ([(0 : ℚ), 1, 1] : Tensor).length
  ∧ ([(1 : ℚ), 0, 2] : Tensor) ≠ []
  ∧ (∃ a b m : ℚ, nonzero_mse [(1 : ℚ), 0, 2] [(0 : ℚ), 1, 1] = some a
      ∧ zero_mse [(1 : ℚ), 0, 2] [(0 : ℚ), 1, 1] = some b
      ∧ plain_mse [(1 : ℚ), 0, 2] [(0 : ℚ), 1, 1] = some m ∧ a + b = m) :=
  ⟨rfl, by simp,
    mse_masks_partition [(1 : ℚ), 0, 2] [(0 : ℚ), 1, 1] rfl (by simp)⟩

/-! ## Lemmas about the streaming encode pipeline -/

theorem main_fold_eq {α : Type} (paths : List Record) (enc : Nat → α) (bs : Nat) :
    ∀ (n : Nat) (init : GState α) (acc0 : List Nat),
      (List.range n).foldl
        (fun (p : GState α × List Nat) iteration =>
          (((List.range bs).map (fun batch_idx => iteration * bs + batch_idx)).foldl
              (appendEntry paths enc) p.1,
            p.2 ++ [((List.range bs).map
              (fun batch_idx => iteration * bs + batch_idx)).length]))
        (init, acc0)
      = ((List.range (n * bs)).foldl (appendEntry paths enc) init,
          acc0 ++ List.replicate n bs) := by
  intro n
  induction n with
  | zero => intro init acc0; simp
  | succ m ih =>
    intro init acc0
    rw [List.range_succ, List.foldl_append, ih]
    simp only [List.foldl_cons, List.foldl_nil, List.length_map, List.length_range,
      Prod.mk.injEq]
    constructor
    · rw [Nat.succ_mul, List.range_add, List.foldl_append]
    · simp [List.append_assoc, List.replicate_succ']

theorem range'_foldl_runRecords {α : Type} (paths : List Record) (enc : Nat → α) :
    ∀ (n i : Nat) (st : GState α), i + n ≤ paths.length →
      (List.range' i n).foldl (appendEntry paths enc) st
        = runRecords enc i st ((paths.drop i).take n) := by
  intro n
  induction n with
  | zero => intro i st _; simp [runRecords]
  | succ m ih =>
    intro i st h
    have hi : i < paths.length := by omega
    have hr : List.range' i (m + 1) = i :: List.range' (i + 1) m := rfl
    rw [hr, List.foldl_cons, List.drop_eq_getElem_cons hi, List.take_succ_cons]
    have happ : appendEntry paths enc st i = stepRecord enc i paths[i] st := by
      simp [appendEntry, List.getElem?_eq_getElem hi]
    rw [happ]
    simp only [runRecords]
    exact ih (i + 1) _ (by omega)

theorem runRecords_finalGroups {α : Type} (enc : Nat → α) :
    ∀ (l : List Record) (i : Nat) (st : GState α),
      finalGroups (runRecords enc i st l)
        = st.flushed ++ runFrom enc i st.current_rec st.encodings l := by
  intro l
  induction l with
  | nil =>
    intro i st
    by_cases h : st.encodings.length ≠ 0 <;>
      simp [finalGroups, runRecords, runFrom, h]
  | cons r rs ih =>
    intro i st
    simp only [runRecords, runFrom]
    by_cases hrc : r.receptor ≠ st.current_rec
    · rw [ih (i + 1) (stepRecord enc i r st), if_pos hrc]
      simp [stepRecord, hrc, List.append_assoc]
    · rw [ih (i + 1) (stepRecord enc i r st), if_neg hrc]
      simp [stepRecord, hrc]

theorem runFrom_mergeAcc {α : Type} (enc : Nat → α) :
    ∀ (l : List Record) (i : Nat) (cur : String) (acc : List (Entry α)),
      acc ≠ [] → runFrom enc i cur acc l = mergeAcc cur acc (specGroups enc i l) := by
  intro l
  induction l with
  | nil =>
    intro i cur acc hacc
    simp [runFrom, specGroups, mergeAcc, List.length_eq_zero, hacc]
  | cons r rs ih =>
    intro i cur acc hacc
    simp only [runFrom, specGroups]
    by_cases hrc : r.receptor ≠ cur
    · rw [if_pos hrc, ih (i + 1) r.receptor [entryOf enc r i] (by simp)]
      cases hs : specGroups enc (i + 1) rs with
      | nil => simp [mergeAcc, hrc]
      | cons g rest =>
        obtain ⟨gr, es⟩ := g
        by_cases hg : gr = r.receptor
        · subst hg; simp [mergeAcc, hrc]
        · simp [mergeAcc, hrc, hg]
    · have hcur : r.receptor = cur := not_not.mp hrc
      rw [if_neg hrc, ih (i + 1) cur (acc ++ [entryOf enc r i]) (by simp)]
      cases hs : specGroups enc (i + 1) rs with
      | nil => simp [mergeAcc, hcur]
      | cons g rest =>
        obtain ⟨gr, es⟩ := g
        by_cases hg : gr = r.receptor
        · subst hg; simp [mergeAcc, hcur, List.append_assoc]
        · have hgc : ¬gr = cur := fun h => hg (h.trans hcur.symm)
          simp [mergeAcc, hcur, hg, hgc]

theorem specGroups_cons {α : Type} (enc : Nat → α) (r : Record) (rs : List Record)
    (i : Nat) :
    specGroups enc i (r :: rs)
      = mergeAcc r.receptor [entryOf enc r i] (specGroups enc (i + 1) rs) := by
  cases hs : specGroups enc (i + 1) rs with
  | nil => simp [specGroups, mergeAcc, hs]
  | cons g rest =>
    obtain ⟨gr, es⟩ := g
    by_cases hg : gr = r.receptor <;> simp [specGroups, mergeAcc, hs, hg]

theorem specGroups_head {α : Type} (enc : Nat → α) (r : Record) (rs : List Record)
    (i : Nat) :
    ∃ es rest, specGroups enc i (r :: rs) = (r.receptor, es) :: rest := by
  cases hs : specGroups enc (i + 1) rs with
  | nil => exact ⟨[entryOf enc r i], [], by simp [specGroups, hs]⟩
  | cons g rest =>
    obtain ⟨gr, es⟩ := g
    by_cases hg : gr = r.receptor
    · exact ⟨entryOf enc r i :: es, rest, by simp [specGroups, hs, hg]⟩
    · exact ⟨[entryOf enc r i], (gr, es) :: rest, by simp [specGroups, hs, hg]⟩

theorem specGroups_map_fst {α : Type} (enc : Nat → α) :
    ∀ (l : List Record) (i : Nat),
      (specGroups enc i l).map Prod.fst = dedupConsec (l.map Record.receptor) := by
  intro l
  induction l with
  | nil => intro i; simp [specGroups, dedupConsec]
  | cons r1 l' ih =>
    intro i
    cases l' with
    | nil => simp [specGroups, dedupConsec]
    | cons r2 rs =>
      obtain ⟨es, rest, hspec⟩ := specGroups_head enc r2 rs (i + 1)
      have IH := ih (i + 1)
      rw [hspec] at IH
      rw [specGroups_cons enc r1 (r2 :: rs) i, hspec]
      simp only [List.map_cons] at IH ⊢
      by_cases hg : r2.receptor = r1.receptor
      · simp only [dedupConsec, hg, if_pos]
        simpa [mergeAcc, hg] using IH
      · have hg' : ¬(r1.receptor = r2.receptor) := fun h => hg h.symm
        simp only [dedupConsec, if_neg hg']
        simpa [mergeAcc, hg] using IH

theorem specGroups_flatten {α : Type} (enc : Nat → α) :
    ∀ (l : List Record) (i : Nat),
      ((specGroups enc i l).map Prod.snd).flatten = enumEntries enc i l := by
  intro l
  induction l with
  | nil => intro i; simp [specGroups, enumEntries]
  | cons r1 l' ih =>
    intro i
    cases l' with
    | nil => simp [specGroups, enumEntries]
    | cons r2 rs =>
      obtain ⟨es, rest, hspec⟩ := specGroups_head enc r2 rs (i + 1)
      have IH := ih (i + 1)
      rw [hspec] at IH
      rw [specGroups_cons enc r1 (r2 :: rs) i, hspec]
      simp only [List.map_cons, List.flatten_cons, enumEntries] at IH ⊢
      by_cases hg : r2.receptor = r1.receptor <;> simp [mergeAcc, hg, ← IH]

theorem enumEntries_length {α : Type} (enc : Nat → α) :
    ∀ (l : List Record) (i : Nat), (enumEntries enc i l).length = l.length := by
  intro l
  induction l with
  | nil => intro i; simp [enumEntries]
  | cons r rs ih => intro i; simp [enumEntries, ih]

theorem calculate_encodings_eq {α : Type} (paths : List Record) (bs : Nat)
    (enc : Nat → α) (h0 : paths ≠ []) :
    calculate_encodings paths bs enc
      = some ⟨specGroups enc 0 paths,
          List.replicate (paths.length / bs) bs ++ [paths.length % bs]⟩ := by
  obtain ⟨r0, rest, rfl⟩ : ∃ r0 rest, paths = r0 :: rest := by
    cases paths with
    | nil => exact absurd rfl h0
    | cons a l => exact ⟨a, l, rfl⟩
  simp only [calculate_encodings, List.getElem?_cons_zero]
  rw [main_fold_eq (r0 :: rest) enc bs]
  simp only [List.nil_append, List.length_map, List.length_range]
  have hflat :
      ((List.range ((r0 :: rest).length % bs)).map
          (fun batch_idx => (r0 :: rest).length / bs * bs + batch_idx)).foldl
        (appendEntry (r0 :: rest) enc)
        ((List.range ((r0 :: rest).length / bs * bs)).foldl
          (appendEntry (r0 :: rest) enc) ⟨r0.receptor, [], []⟩)
      = (List.range (r0 :: rest).length).foldl
          (appendEntry (r0 :: rest) enc) ⟨r0.receptor, [], []⟩ := by
    rw [← List.foldl_append, ← List.range_add]
    have harith : (r0 :: rest).length / bs * bs + (r0 :: rest).length % bs
        = (r0 :: rest).length := by
      rw [Nat.mul_comm]
      exact Nat.div_add_mod _ _
    rw [harith]
  rw [hflat, List.range_eq_range' _,
    range'_foldl_runRecords (r0 :: rest) enc (r0 :: rest).length 0 _ (by omega),
    List.drop_zero, List.take_length,
    runRecords_finalGroups enc (r0 :: rest) 0 ⟨r0.receptor, [], []⟩]
  have hrf : runFrom enc 0 r0.receptor [] (r0 :: rest)
      = specGroups enc 0 (r0 :: rest) := by
    have hstep : runFrom enc 0 r0.receptor [] (r0 :: rest)
        = runFrom enc 1 r0.receptor [entryOf enc r0 0] rest := by
      simp [runFrom]
    rw [hstep, runFrom_mergeAcc enc rest 1 r0.receptor [entryOf enc r0 0] (by simp),
      ← specGroups_cons]
  simp [hrf]

/-! ## Claim theorems about the streaming encode pipeline -/

/-- Claim C2: for every receptor-contiguous non-empty index file and
every batch size, the pipeline flushes exactly the canonical groups: the
flushed groups are `specGroups` (one group per receptor run), their
concatenated entries are all sample records in original file order (so
each record lands in exactly one group, in order), and the flushed
receptor sequence is the receptor column with runs collapsed, which
under contiguity contains each receptor exactly once, in order of first
appearance. -/
theorem pipeline_grouping {α : Type} (paths : List Record) (bs : Nat)
    (enc : Nat → α) (h0 : paths ≠ []) (hg : groupedByRec paths) (_hbs : 0 < bs) :
    ∃ tr : EncodeTrace α, calculate_encodings paths bs enc = some tr ∧
      tr.groups = specGroups enc 0 paths ∧
      (tr.groups.map Prod.snd).flatten = enumEntries enc 0 paths ∧
      tr.groups.map Prod.fst = dedupConsec (paths.map Record.receptor) ∧
      (tr.groups.map Prod.fst).Nodup := by
  refine ⟨_, calculate_encodings_eq paths bs enc h0, rfl, ?_, ?_, ?_⟩
  · exact specGroups_flatten enc paths 0
  · exact specGroups_map_fst enc paths 0
  · rw [specGroups_map_fst enc paths 0]
    exact hg

/-- Witness for C2: receptors `[A, A, A, B, B, C]` with batch size 2
(the specification's own example). -/
theorem pipeline_grouping_witness :
    ([⟨0, "A", "l0"⟩, ⟨1, "A", "l1"⟩, ⟨0, "A", "l2"⟩,
      ⟨1, "B", "l3"⟩, ⟨0, "B", "l4"⟩, ⟨1, "C", "l5"⟩] : List Record) ≠ []
  ∧ groupedByRec [⟨0, "A", "l0"⟩, ⟨1, "A", "l1"⟩, ⟨0, "A", "l2"⟩,
      ⟨1, "B", "l3"⟩, ⟨0, "B", "l4"⟩, ⟨1, "C", "l5"⟩]
  ∧ 0 < 2
  ∧ specGroups (fun i => (i : Int)) 0
      [⟨0, "A", "l0"⟩, ⟨1, "A", "l1"⟩, ⟨0, "A", "l2"⟩,
       ⟨1, "B", "l3"⟩, ⟨0, "B", "l4"⟩, ⟨1, "C", "l5"⟩]
      = [("A", [(0, "l0", (0 : Int)), (1, "l1", 1), (0, "l2", 2)]),
         ("B", [(1, "l3", 3), (0, "l4", 4)]),
         ("C", [(1, "l5", 5)])]
  ∧ (∃ tr : EncodeTrace Int,
      calculate_encodings
        [⟨0, "A", "l0"⟩, ⟨1, "A", "l1"⟩, ⟨0, "A", "l2"⟩,
         ⟨1, "B", "l3"⟩, ⟨0, "B", "l4"⟩, ⟨1, "C", "l5"⟩] 2 (fun i => (i : Int))
        = some tr ∧
      tr.groups = specGroups (fun i => (i : Int)) 0
        [⟨0, "A", "l0"⟩, ⟨1, "A", "l1"⟩, ⟨0, "A", "l2"⟩,
         ⟨1, "B", "l3"⟩, ⟨0, "B", "l4"⟩, ⟨1, "C", "l5"⟩] ∧
      (tr.groups.map Prod.snd).flatten = enumEntries (fun i => (i : Int)) 0
        [⟨0, "A", "l0"⟩, ⟨1, "A", "l1"⟩, ⟨0, "A", "l2"⟩,
         ⟨1, "B", "l3"⟩, ⟨0, "B", "l4"⟩, ⟨1, "C", "l5"⟩] ∧
      tr.groups.map Prod.fst = dedupConsec
        (([⟨0, "A", "l0"⟩, ⟨1, "A", "l1"⟩, ⟨0, "A", "l2"⟩,
           ⟨1, "B", "l3"⟩, ⟨0, "B", "l4"⟩, ⟨1, "C", "l5"⟩] : List Record).map
          Record.receptor) ∧
      (tr.groups.map Prod.fst).Nodup) :=
  ⟨by simp, by decide, by decide, by decide,
    pipeline_grouping
      [⟨0, "A", "l0"⟩, ⟨1, "A", "l1"⟩, ⟨0, "A", "l2"⟩,
       ⟨1, "B", "l3"⟩, ⟨0, "B", "l4"⟩, ⟨1, "C", "l5"⟩] 2 (fun i => (i : Int))
      (by simp) (by decide) (by decide)⟩

/-- Claim C4: for every non-empty index file and positive batch size,
the pipeline consumes exactly `total / batch_size` full batches, then
always requests one additional batch of which only the first
`total % batch_size` results are consumed (zero of them when the batch
size divides the total), and in total emits exactly `total` entries. -/
theorem pipeline_remainder_batches {α : Type} (paths : List Record) (bs : Nat)
    (enc : Nat → α) (h0 : paths ≠ []) (_hbs : 0 < bs) :
    ∃ tr : EncodeTrace α, calculate_encodings paths bs enc = some tr ∧
      tr.batch_consumed
        = List.replicate (paths.length / bs) bs ++ [paths.length % bs] ∧
      tr.batch_consumed.length = paths.length / bs + 1 ∧
      tr.batch_consumed.sum = paths.length ∧
      ((tr.groups.map Prod.snd).flatten).length = paths.length := by
  refine ⟨_, calculate_encodings_eq paths bs enc h0, rfl, ?_, ?_, ?_⟩
  · simp
  · simp only [List.sum_append, List.sum_replicate, List.sum_cons, List.sum_nil,
      smul_eq_mul]
    rw [Nat.mul_comm]
    have := Nat.div_add_mod paths.length bs
    omega
  · rw [specGroups_flatten enc paths 0]
    exact enumEntries_length enc paths 0

/-- Witness for C4: 7 records with batch size 3 (the specification's own
example): two full batches of 3, one extra batch of which 1 result is
consumed, 7 entries emitted. -/
theorem pipeline_remainder_batches_witness :
    ([⟨0, "A", "l0"⟩, ⟨1, "A", "l1"⟩, ⟨0, "A", "l2"⟩, ⟨1, "A", "l3"⟩,
      ⟨0, "A", "l4"⟩, ⟨1, "A", "l5"⟩, ⟨0, "A", "l6"⟩] : List Record) ≠ []
  ∧ 0 < 3
  ∧ (∃ tr : EncodeTrace Int,
      calculate_encodings
        [⟨0, "A", "l0"⟩, ⟨1, "A", "l1"⟩, ⟨0, "A", "l2"⟩, ⟨1, "A", "l3"⟩,
         ⟨0, "A", "l4"⟩, ⟨1, "A", "l5"⟩, ⟨0, "A", "l6"⟩] 3 (fun i => (i : Int))
        = some tr ∧
      tr.batch_consumed = List.replicate
          (([⟨0, "A", "l0"⟩, ⟨1, "A", "l1"⟩, ⟨0, "A", "l2"⟩, ⟨1, "A", "l3"⟩,
             ⟨0, "A", "l4"⟩, ⟨1, "A", "l5"⟩, ⟨0, "A", "l6"⟩] : List Record).length / 3) 3
        ++ [([⟨0, "A", "l0"⟩, ⟨1, "A", "l1"⟩, ⟨0, "A", "l2"⟩, ⟨1, "A", "l3"⟩,
              ⟨0, "A", "l4"⟩, ⟨1, "A", "l5"⟩, ⟨0, "A", "l6"⟩] : List Record).length % 3] ∧
      tr.batch_consumed.length
        = ([⟨0, "A", "l0"⟩, ⟨1, "A", "l1"⟩, ⟨0, "A", "l2"⟩, ⟨1, "A", "l3"⟩,
            ⟨0, "A", "l4"⟩, ⟨1, "A", "l5"⟩, ⟨0, "A", "l6"⟩] : List Record).length / 3 + 1 ∧
      tr.batch_consumed.sum
        = ([⟨0, "A", "l0"⟩, ⟨1, "A", "l1"⟩, ⟨0, "A", "l2"⟩, ⟨1, "A", "l3"⟩,
            ⟨0, "A", "l4"⟩, ⟨1, "A", "l5"⟩, ⟨0, "A", "l6"⟩] : List Record).length ∧
      ((tr.groups.map Prod.snd).flatten).length
        = ([⟨0, "A", "l0"⟩, ⟨1, "A", "l1"⟩, ⟨0, "A", "l2"⟩, ⟨1, "A", "l3"⟩,
            ⟨0, "A", "l4"⟩, ⟨1, "A", "l5"⟩, ⟨0, "A", "l6"⟩] : List Record).length) :=
  ⟨by simp, by decide,
    pipeline_remainder_batches
      [⟨0, "A", "l0"⟩, ⟨1, "A", "l1"⟩, ⟨0, "A", "l2"⟩, ⟨1, "A", "l3"⟩,
       ⟨0, "A", "l4"⟩, ⟨1, "A", "l5"⟩, ⟨0, "A", "l6"⟩] 3 (fun i => (i : Int))
      (by simp) (by decide)⟩

/-! ## Index-file parsing: the grouping check is dead code -/

theorem get_paths_go_never_errors :
    ∀ (lines : List Record) (idx : Nat) (cur : Option String)
      (acc : List (Nat × Record)),
      ∃ ps, get_paths_go [] idx cur acc lines = Except.ok ps := by
  intro lines
  induction lines with
  | nil => intro idx cur acc; exact ⟨acc, rfl⟩
  | cons line rest ih =>
    intro idx cur acc
    by_cases hidx : idx = 0
    · simp only [get_paths_go, if_pos hidx]
      exact ih (idx + 1) (some line.receptor) (acc ++ [(idx, line)])
    · have hc : ¬(some line.receptor ≠ cur ∧ line.receptor ∈ ([] : List String)) := by
        simp
      simp only [get_paths_go, if_neg hidx, if_neg hc]
      exact ih (idx + 1) cur (acc ++ [(idx, line)])

/-- `get_paths` never reports a grouping violation on any input: the set
`recs` it consults is created empty and never extended, so the guard of
source lines 61-65 cannot fire. -/
theorem get_paths_never_errors (lines : List Record) :
    ∃ ps, get_paths lines = Except.ok ps :=
  get_paths_go_never_errors lines 0 none []

/-- Claim C1 (the code contradicts it): on the index file with receptor
column `[A, B, A]` — A reappearing after B has been seen — `get_paths`
does not fail; it returns the complete mapping.  The check of source
lines 61-65 is dead: `recs` is never populated and `current_rec` is
never updated after the first line. -/
theorem get_paths_ABA_no_error :
    get_paths [⟨0, "A", "l1"⟩, ⟨1, "B", "l2"⟩, ⟨0, "A", "l3"⟩]
      = Except.ok [(0, ⟨0, "A", "l1"⟩), (1, ⟨1, "B", "l2"⟩),
          (2, ⟨0, "A", "l3"⟩)] := by
  rfl

/-! ## Claim theorems about model compilation -/

/-- Claim C5 counterexample: `composite_mse` is not among the metrics
attached on the reconstruction output, neither when the composite loss
is configured nor for a standard loss; the attached list is
`[mae, nonzero_mae, zero_mae, zero_mse, nonzero_mse]` (source line 71). -/
theorem composite_mse_not_in_metrics :
    MetricFn.composite_mse ∉
        (autoencoder_compile "composite_mse").reconstruction_metrics
  ∧ MetricFn.composite_mse ∉ (autoencoder_compile "mse").reconstruction_metrics := by
  constructor <;> decide

/-- Claim C5 (amended): for every configured loss, the metrics attached
on the reconstruction output are exactly
`[mae, nonzero_mae, zero_mae, zero_mse, nonzero_mse]` — so the masked
MSE/MAE family is always tracked regardless of which loss is optimised,
together with plain `mae`, while `composite_mse` is never a metric. -/
theorem metrics_independent_of_loss (loss : String) :
    (autoencoder_compile loss).reconstruction_metrics
      = [MetricFn.mae, MetricFn.nonzero_mae, MetricFn.zero_mae,
         MetricFn.zero_mse, MetricFn.nonzero_mse] := by
  by_cases h : loss = "composite_mse" <;> simp [autoencoder_compile, h]

/-! ## Claim theorem about process_batch -/

/-- Claim C9: `process_batch` raises `MissingLabelsError` exactly when
training is requested without a labels tensor; in that case its action
trace is empty (no batch fetched, no inference run), and in every other
case a batch is fetched. -/
theorem process_batch_missing_labels (train has_labels has_autoencoder : Bool) :
    ((process_batch train has_labels has_autoencoder).2
        = some PBError.missingLabels ↔ (train = true ∧ has_labels = false))
  ∧ ((process_batch train has_labels has_autoencoder).1 = []
        ↔ (train = true ∧ has_labels = false))
  ∧ ((process_batch train has_labels has_autoencoder).2 = none
        ↔ BatchAction.next_batch ∈ (process_batch train has_labels has_autoencoder).1) := by
  cases train <;> cases has_labels <;> cases has_autoencoder <;> decide

/-! ## Lemmas about the binary serialiser -/

theorem fsLookup_fsWrite {β : Type} :
    ∀ (files : List (String × β)) (path : String) (c : β) (q : String),
      fsLookup (fsWrite files path c) q
        = if q = path then some c else fsLookup files q := by
  intro files
  induction files with
  | nil =>
    intro path c q
    by_cases h : q = path
    · subst h; simp [fsWrite, fsLookup]
    · simp [fsWrite, fsLookup, h, Ne.symm h]
  | cons kv rest ih =>
    intro path c q
    by_cases h1 : kv.1 = path <;> by_cases h2 : q = path <;>
      by_cases h3 : kv.1 = q <;>
      simp_all [fsWrite, fsLookup]

theorem mem_foldl_insert (l : List String) :
    ∀ (ds : List String) (q : String), q ∈ ds →
      q ∈ l.foldl (fun ds p => if p ∈ ds then ds else ds ++ [p]) ds := by
  induction l with
  | nil => intro ds q h; simpa using h
  | cons a l ih =>
    intro ds q h
    simp only [List.foldl_cons]
    apply ih
    by_cases ha : a ∈ ds <;> simp [ha, h]

theorem mem_foldl_insert_self (l : List String) :
    ∀ (ds : List String) (p : String), p ∈ l →
      p ∈ l.foldl (fun ds p => if p ∈ ds then ds else ds ++ [p]) ds := by
  induction l with
  | nil => intro ds p h; simp at h
  | cons a l ih =>
    intro ds p h
    simp only [List.foldl_cons]
    rcases List.mem_cons.mp h with h | h
    · subst h
      apply mem_foldl_insert
      by_cases ha : p ∈ ds <;> simp [ha]
    · exact ih _ p h

theorem foldl_insert_noop (l : List String) :
    ∀ ds : List String, (∀ p ∈ l, p ∈ ds) →
      l.foldl (fun ds p => if p ∈ ds then ds else ds ++ [p]) ds = ds := by
  induction l with
  | nil => intro ds _; rfl
  | cons a l ih =>
    intro ds h
    simp only [List.foldl_cons]
    rw [if_pos (h a (by simp))]
    exact ih ds (fun p hp => h p (by simp [hp]))

theorem mkdir_parents_subset (dirs : List String) (d : String) :
    ancestorDirs d ⊆ mkdir_parents_exist_ok dirs d := by
  intro p hp
  exact mem_foldl_insert_self (ancestorDirs d) dirs p hp

theorem mkdir_parents_idem (dirs : List String) (d : String) :
    mkdir_parents_exist_ok (mkdir_parents_exist_ok dirs d) d
      = mkdir_parents_exist_ok dirs d := by
  unfold mkdir_parents_exist_ok
  apply foldl_insert_noop
  intro p hp
  exact mem_foldl_insert_self (ancestorDirs d) dirs p hp

/-! ## Claim theorem about the binary serialiser -/

/-- Claim C8: flushing a group writes exactly one file, at
`<save_path>/encodings/<receptor stem>.bin` (the name derived from the
receptor path's stem plus the fixed `.bin` extension), overwriting any
existing file at that path and touching no other path; and creating the
encodings directory with its parents is idempotent. -/
theorem serializer_one_file_per_group {α : Type}
    (files : List (String × ProteinMsg α)) (dirs : List String)
    (save_path rec_path : String) (encodings : List (Entry α)) (q : String) :
    (fsLookup (write_encodings_to_disk rec_path encodings
        (encodingsDir save_path) files) q
      = if q = encodingsDir save_path ++ "/" ++ (pyStem rec_path ++ ".bin")
        then some (buildProteinMsg rec_path encodings)
        else fsLookup files q)
  ∧ ancestorDirs (encodingsDir save_path)
      ⊆ mkdir_parents_exist_ok dirs (encodingsDir save_path)
  ∧ mkdir_parents_exist_ok
        (mkdir_parents_exist_ok dirs (encodingsDir save_path))
        (encodingsDir save_path)
    = mkdir_parents_exist_ok dirs (encodingsDir save_path) := by
  refine ⟨?_, mkdir_parents_subset dirs _, mkdir_parents_idem dirs _⟩
  unfold write_encodings_to_disk binFileName
  exact fsLookup_fsWrite files _ _ q

/-- Witness for C8 at a concrete receptor path, store and query. -/
theorem serializer_one_file_per_group_witness :
    (fsLookup (write_encodings_to_disk "data/rec1.gninatypes"
        [((1 : Int), "lig1", (7 : Int))] (encodingsDir "out")
        ([] : List (String × ProteinMsg Int))) "out/encodings/rec1.bin"
      = if "out/encodings/rec1.bin"
          = encodingsDir "out" ++ "/" ++ (pyStem "data/rec1.gninatypes" ++ ".bin")
        then some (buildProteinMsg "data/rec1.gninatypes"
            [((1 : Int), "lig1", (7 : Int))])
        else fsLookup ([] : List (String × ProteinMsg Int)) "out/encodings/rec1.bin")
  ∧ ancestorDirs (encodingsDir "out")
      ⊆ mkdir_parents_exist_ok [] (encodingsDir "out")
  ∧ mkdir_parents_exist_ok (mkdir_parents_exist_ok [] (encodingsDir "out"))
        (encodingsDir "out")
    = mkdir_parents_exist_ok [] (encodingsDir "out") :=
  serializer_one_file_per_group [] [] "out" "data/rec1.gninatypes"
    [((1 : Int), "lig1", (7 : Int))] "out/encodings/rec1.bin"

end GninaTF
